import Mathlib

/-! Shallow embedding of `cognitive_graph/tasks/unsupervised_node_classification.py`.

Matrices are lists of rows; probabilities are rationals; the Python `assert`
in `TopKRanker.predict` is modelled with `Option`.
-/

namespace Cogdl

/-- Python slice `l[-k:]`: for `k = 0` this is `l[0:]`, i.e. the whole list;
for `k ≥ 1` it is the last `min k l.length` elements. -/
def negSlice {α : Type} (k : Nat) (l : List α) : List α :=
  if k = 0 then l else l.drop (l.length - k)

/-- `numpy.argsort` on a probability row: the indices `0 .. p.length - 1`
sorted so that the probabilities appear in ascending order (ties broken by
the sort's own deterministic order, as in the source). -/
def argsort (p : List ℚ) : List Nat :=
  (List.range p.length).insertionSort (fun i j => p.getD i 0 ≤ p.getD j 0)

/-- One row of `TopKRanker.predict` (lines 125-129): take the last `k` entries
of `argsort` of the row's probabilities and set those columns of an all-zero
indicator row to `1`. -/
def predictRow (p : List ℚ) (k : Nat) : List Nat :=
  let labels := negSlice k (argsort p)
  (List.range p.length).map (fun j => if j ∈ labels then 1 else 0)

/-- `TopKRanker.predict` (lines 120-130).  The leading
`assert X.shape[0] == len(top_k_list)` is the `none` branch; the per-class
probabilities computed by the wrapped one-vs-rest classifier are the opaque
input `probs` (one row per test example). -/
def predict (probs : List (List ℚ)) (topKList : List Nat) :
    Option (List (List Nat)) :=
  if probs.length = topKList.length then
    some (List.zipWith predictRow probs topKList)
  else none

/-- Python `int()` applied to a rational: truncation toward zero
(line 92 applies it to `train_percent * num_nodes`). -/
def pyInt (q : ℚ) : Int :=
  if 0 ≤ q then ⌊q⌋ else ⌈q⌉

/-- Round a rational to the nearest integer, ties to even — the IEEE-754
default rounding used by Python's float arithmetic. -/
def roundTiesEven (m : ℚ) : ℤ :=
  if m - ⌊m⌋ < 1/2 then ⌊m⌋
  else if 1/2 < m - ⌊m⌋ then ⌊m⌋ + 1
  else if ⌊m⌋ % 2 = 0 then ⌊m⌋ else ⌊m⌋ + 1

/-- Round a positive rational to 53 significant binary digits: the scaled
mantissa `q * 2 ^ (52 - ⌊log₂ q⌋)` lies in `[2^52, 2^53)`; it is rounded to
the nearest integer (ties to even) and rescaled. -/
def roundPos (q : ℚ) : ℚ :=
  (roundTiesEven (q * 2 ^ (52 - Int.log 2 q)) : ℚ) * 2 ^ (Int.log 2 q - 52)

/-- IEEE-754 binary64 round-to-nearest, ties-to-even, for rationals in the
normal finite range (overflow and subnormals are far out of range for every
quantity this evaluator computes, so they are not modelled). -/
def roundDouble (q : ℚ) : ℚ :=
  if q = 0 then 0 else if 0 < q then roundPos q else -roundPos (-q)

/-- `training_size = int(train_percent * self.num_nodes)` (line 92):
`train_percent` is a binary64 double (so `f` here is the exact rational
value of that double, e.g. `roundDouble (7/10)` for the literal `0.7`),
`num_nodes` converts to a double exactly while it is below `2^53`, the
product is the correctly rounded binary64 result of the exact
multiplication, and `int()` truncates it. -/
def trainingSize (f : ℚ) (numNodes : Nat) : Nat :=
  (pyInt (roundDouble (f * numNodes))).toNat

/-- `X[:training_size]` / `y[:training_size]` (lines 94-95). -/
def trainSplit {α : Type} (ts : Nat) (m : List α) : List α := m.take ts

/-- `X[training_size:]` / `y[training_size:]` (lines 97-98). -/
def testSplit {α : Type} (ts : Nat) (m : List α) : List α := m.drop ts

/-- `top_k_list = list(map(int, y_test.sum(axis=1).T.tolist()[0]))`
(line 104): per-row sums of the test label matrix. -/
def topKListOf (yTest : List (List Nat)) : List Nat :=
  yTest.map (fun r => r.sum)

/-- Single-label branch of the label-matrix builder (lines 47-48):
`label_matrix = zeros((num_nodes, num_classes)); label_matrix[range(n), y] = 1`.
Row `i` is the all-zero row of width `numClasses` with position `y i` set. -/
def labelMatrixSingle (y : List Nat) (numClasses : Nat) : List (List Nat) :=
  y.map (fun c => (List.replicate numClasses 0).set c 1)

/-- `sklearn.utils.shuffle` applied jointly (line 81): one permutation `perm`
of the row indices reorders any row-aligned matrix, row `j` of the output
being row `perm j` of the input. -/
def applyPerm {α : Type} (d : α) (perm : List Nat) (m : List α) : List α :=
  perm.map (fun i => m.getD i d)

/-- The shuffled rows tagged with their original index (the "stored
original-index column" of the round-trip check). -/
def withIndex {α : Type} (d : α) (perm : List Nat) (m : List α) :
    List (Nat × α) :=
  perm.map (fun i => (i, m.getD i d))

/-- Sorting tagged rows back by their original index. -/
def sortByIndex {α : Type} (l : List (Nat × α)) : List (Nat × α) :=
  l.insertionSort (fun a b => a.1 ≤ b.1)

/-- `networkx` node insertion: a node is appended to the visitation order the
first time it occurs in an edge. -/
def insertNode (l : List Nat) (x : Nat) : List Nat :=
  if x ∈ l then l else l ++ [x]

/-- `G.add_edges_from(edge_index)` followed by iterating `G.nodes()`
(lines 60-61, 66): the deduplicated first-occurrence order of node indices
across the edge list, each edge inserting its source then its target. -/
def nodesOrder (edges : List (Nat × Nat)) : List Nat :=
  edges.foldl (fun l e => insertNode (insertNode l e.1) e.2) []

/-- The assignment loop `for vid, node in enumerate(G.nodes()):
features_matrix[node] = embeddings[vid]` run over an explicit list of
`(vid, node)` pairs. -/
def assignRows (emb : List (List ℚ)) (pairs : List (Nat × Nat))
    (m : List (List ℚ)) : List (List ℚ) :=
  pairs.foldl (fun a p => a.set p.2 (emb.getD p.1 [])) m

/-- Embedding alignment (lines 65-67): start from the all-zero
`(num_nodes, hidden_size)` matrix and copy embedding row `vid` into matrix
row `node` for every `(vid, node)` in the visitation order. -/
def alignFeatures (numNodes hiddenSize : Nat) (order : List Nat)
    (emb : List (List ℚ)) : List (List ℚ) :=
  assignRows emb order.enum
    (List.replicate numNodes (List.replicate hiddenSize (0 : ℚ)))

/-- `training_percents = [0.1, 0.3, 0.5, 0.7, 0.9]` (line 86): the
mathematical values of the five literals, used below for the result keys
(Python prints each of these floats as its shortest decimal `0.1` … `0.9`).
The arithmetic of line 92 sees the binary64 value of a literal instead, so
`trainingSize` receives e.g. `roundDouble (7/10)`, not `7/10`. -/
def trainingPercents : List ℚ := [1/10, 3/10, 5/10, 7/10, 9/10]

/-- Decimal rendering of a training fraction, as Python's `repr` prints the
five fixed floats: every element of `training_percents` is a multiple of `1/10`
in `(0, 1)`, printed as `0.<digit>`. -/
def floatRepr1 (f : ℚ) : String := "0." ++ toString (f * 10).num

/-- The scores appended to `all_results[train_percent]` (lines 88-107), one
per shuffle, with the fit/predict/`f1_score` pipeline abstracted as the
opaque scorer `score` (fraction → shuffle index → micro-F1). -/
def recordedScores (score : ℚ → Nat → ℚ) (numShuffle : Nat) (f : ℚ) :
    List ℚ :=
  (List.range numShuffle).map (score f)

/-- `sorted(all_results.keys())` (line 115): a fraction is a key exactly when
its score list received at least one append, i.e. when `num_shuffle ≠ 0`,
and the keys are listed in ascending order. -/
def resultKeys (numShuffle : Nat) : List ℚ :=
  if numShuffle = 0 then [] else trainingPercents.insertionSort (· ≤ ·)

/-- The returned mapping (lines 110-116): for each key, the pair of the
human-readable label and `sum(scores) / len(scores)`. -/
def evaluate (score : ℚ → Nat → ℚ) (numShuffle : Nat) :
    List (String × ℚ) :=
  (resultKeys numShuffle).map (fun f =>
    ("Micro-F1 " ++ floatRepr1 f,
     (recordedScores score numShuffle f).sum /
       ((recordedScores score numShuffle f).length : ℚ)))

/-! Helper lemmas about `argsort` and `predictRow`. -/

theorem argsort_perm (p : List ℚ) : (argsort p).Perm (List.range p.length) :=
  List.perm_insertionSort _ _

theorem argsort_length (p : List ℚ) : (argsort p).length = p.length := by
  simpa using (argsort_perm p).length_eq

theorem argsort_nodup (p : List ℚ) : (argsort p).Nodup :=
  ((argsort_perm p).nodup_iff).mpr (List.nodup_range p.length)

theorem mem_argsort {p : List ℚ} {j : Nat} : j ∈ argsort p ↔ j < p.length := by
  rw [(argsort_perm p).mem_iff, List.mem_range]

theorem argsort_pairwise (p : List ℚ) :
    (argsort p).Pairwise (fun i j => p.getD i 0 ≤ p.getD j 0) := by
  haveI : IsTotal Nat (fun i j => p.getD i 0 ≤ p.getD j 0) :=
    ⟨fun _ _ => le_total _ _⟩
  haveI : IsTrans Nat (fun i j => p.getD i 0 ≤ p.getD j 0) :=
    ⟨fun _ _ _ hab hbc => le_trans hab hbc⟩
  exact List.sorted_insertionSort _ _

theorem predictRow_length (p : List ℚ) (k : Nat) :
    (predictRow p k).length = p.length := by
  simp [predictRow]

theorem getD_predictRow {p : List ℚ} {k j : Nat} (hj : j < p.length) :
    (predictRow p k).getD j 0 = if j ∈ negSlice k (argsort p) then 1 else 0 := by
  rw [predictRow]
  rw [List.getD_eq_getElem _ _ (by simpa using hj)]
  simp

theorem count_one_predictRow (p : List ℚ) (k : Nat) (hk1 : 1 ≤ k)
    (hk2 : k ≤ p.length) : (predictRow p k).count 1 = k := by
  have hkne : k ≠ 0 := by omega
  set l := argsort p with hldef
  have hlen : l.length = p.length := argsort_length p
  set t := l.take (l.length - k) with htdef
  set d := l.drop (l.length - k) with hddef
  have hlab : negSlice k l = d := by rw [negSlice, if_neg hkne]
  have hsplit : l = t ++ d := (List.take_append_drop _ _).symm
  have hnd : l.Nodup := argsort_nodup p
  have hdisj : ∀ a ∈ t, a ∉ d := by
    rw [hsplit, List.nodup_append] at hnd
    exact fun a ha => hnd.2.2 ha
  rw [predictRow, List.count_eq_countP, List.countP_map]
  have hcongr : List.countP
        ((fun x => x == 1) ∘ fun j => if j ∈ negSlice k l then 1 else 0)
        (List.range p.length) =
      List.countP (fun j => decide (j ∈ d)) (List.range p.length) := by
    refine List.countP_congr fun x _ => ?_
    rw [hlab]
    by_cases hmem : x ∈ d <;> simp [hmem]
  rw [hcongr, ← (argsort_perm p).countP_eq]
  rw [show List.countP (fun j => decide (j ∈ d)) (argsort p) =
      List.countP (fun j => decide (j ∈ d)) (t ++ d) by rw [← hldef, ← hsplit]]
  rw [List.countP_append]
  have h1 : List.countP (fun j => decide (j ∈ d)) t = 0 :=
    List.countP_eq_zero.mpr (by intro a ha; simpa using hdisj a ha)
  have h2 : List.countP (fun j => decide (j ∈ d)) d = d.length :=
    List.countP_eq_length.mpr (by intro a ha; simpa using ha)
  rw [h1, h2, hddef, List.length_drop]
  omega

theorem predict_eq_some {probs : List (List ℚ)} {ks : List Nat}
    {out : List (List Nat)} (h : predict probs ks = some out) :
    probs.length = ks.length ∧ out = List.zipWith predictRow probs ks := by
  rw [predict] at h
  by_cases hlen : probs.length = ks.length
  · rw [if_pos hlen] at h
    exact ⟨hlen, (Option.some_inj.mp h).symm⟩
  · rw [if_neg hlen] at h
    exact absurd h (by simp)

theorem getD_zipWith_predictRow {probs : List (List ℚ)} {ks : List Nat}
    {i : Nat} (hi : i < probs.length) (hlen : probs.length = ks.length) :
    (List.zipWith predictRow probs ks).getD i [] =
      predictRow (probs.getD i []) (ks.getD i 0) := by
  have hz : i < (List.zipWith predictRow probs ks).length := by
    rw [List.length_zipWith]; omega
  rw [List.getD_eq_getElem _ _ hz, List.getElem_zipWith,
    List.getD_eq_getElem _ _ hi, List.getD_eq_getElem _ _ (by omega)]

theorem getD_le_of_mem_negSlice {p : List ℚ} {k j j' : Nat}
    (hj' : j' < p.length) (hmem : j ∈ negSlice k (argsort p))
    (hnmem : j' ∉ negSlice k (argsort p)) :
    p.getD j' 0 ≤ p.getD j 0 := by
  by_cases hk : k = 0
  · rw [negSlice, if_pos hk] at hnmem
    exact absurd (mem_argsort.mpr hj') hnmem
  · rw [negSlice, if_neg hk] at hmem hnmem
    have hj'as : j' ∈ argsort p := mem_argsort.mpr hj'
    have hsplit := (List.take_append_drop ((argsort p).length - k) (argsort p))
    have hj'take : j' ∈ (argsort p).take ((argsort p).length - k) := by
      rw [← hsplit] at hj'as
      exact (List.mem_append.mp hj'as).resolve_right hnmem
    have hpw := argsort_pairwise p
    rw [← hsplit, List.pairwise_append] at hpw
    exact hpw.2.2 j' hj'take j hmem

/-- C1 (amended): for every test row whose oracle label count `k` satisfies
`1 ≤ k ≤ num_classes` (the upper bound holds automatically when `k` is the
row sum of a binary ground-truth row), `TopKRanker.predict` marks exactly
`k` classes as positive in that row of the output indicator matrix. -/
theorem predict_row_positive_count (probs : List (List ℚ)) (ks : List Nat)
    (out : List (List Nat)) (i : Nat) (h : predict probs ks = some out)
    (hi : i < probs.length) (hk1 : 1 ≤ ks.getD i 0)
    (hk2 : ks.getD i 0 ≤ (probs.getD i []).length) :
    (out.getD i []).count 1 = ks.getD i 0 := by
  obtain ⟨hlen, hout⟩ := predict_eq_some h
  rw [hout, getD_zipWith_predictRow hi hlen]
  exact count_one_predictRow _ _ hk1 hk2

theorem predict_row_positive_count_witness :
    (([[1, 1, 0]] : List (List Nat)).getD 0 []).count 1 =
      ([2] : List Nat).getD 0 0 :=
  predict_row_positive_count [[(4 : ℚ), 2, 1]] [2] [[1, 1, 0]] 0
    (by decide) (by decide) (by decide) (by decide)

/-- C1 (counterexample to the claim as stated): for the concrete test row
with predicted probabilities `[3, 2]` and oracle label count `k = 0`
(a ground-truth row with no positive labels), the row emitted by
`TopKRanker.predict` contains two positives, not `k = 0`. -/
theorem predict_zero_k_count_mismatch :
    (((predict [[(3 : ℚ), 2]] [0]).getD []).getD 0 []).count 1 ≠
      ([0] : List Nat).getD 0 0 := by decide

/-- C10: whenever a test row's oracle count `k` is `0`, `TopKRanker.predict`
marks every class of that row as positive, because the slice
`argsort()[-0:]` is the whole ascending index list. -/
theorem predict_zero_k_marks_all (probs : List (List ℚ)) (ks : List Nat)
    (out : List (List Nat)) (i : Nat) (h : predict probs ks = some out)
    (hi : i < probs.length) (hk : ks.getD i 0 = 0) :
    out.getD i [] = List.replicate (probs.getD i []).length 1 := by
  obtain ⟨hlen, hout⟩ := predict_eq_some h
  rw [hout, getD_zipWith_predictRow hi hlen, hk]
  rw [predictRow, negSlice, if_pos rfl]
  have hall : ∀ j ∈ List.range (probs.getD i []).length,
      (if j ∈ argsort (probs.getD i []) then (1 : Nat) else 0) = 1 := by
    intro j hj
    rw [if_pos (mem_argsort.mpr (List.mem_range.mp hj))]
  rw [List.map_congr_left hall, List.map_const', List.length_range]

theorem predict_zero_k_marks_all_witness :
    ([[1, 1]] : List (List Nat)).getD 0 [] =
      List.replicate (([[(3 : ℚ), 1]] : List (List ℚ)).getD 0 []).length 1 :=
  predict_zero_k_marks_all [[(3 : ℚ), 1]] [0] [[1, 1]] 0
    (by decide) (by decide) (by decide)

/-- C9: `TopKRanker.predict` succeeds exactly when the number of test rows
equals the length of the supplied top-k list; when they differ the leading
assertion fails (modelled as `none`) before any probability is used. -/
theorem predict_isSome_iff (probs : List (List ℚ)) (ks : List Nat) :
    (predict probs ks).isSome ↔ probs.length = ks.length := by
  rw [predict]
  by_cases h : probs.length = ks.length <;> simp [h]

/-- C3: every class marked positive by `TopKRanker.predict` for a test row
has predicted probability at least that of every class left unmarked in the
same row: the `k` selected classes are top-ranked by probability. -/
theorem predict_selects_top_probs (probs : List (List ℚ)) (ks : List Nat)
    (out : List (List Nat)) (i j j' : Nat) (h : predict probs ks = some out)
    (hi : i < probs.length) (hj : j < (probs.getD i []).length)
    (hj' : j' < (probs.getD i []).length)
    (hsel : (out.getD i []).getD j 0 = 1)
    (hunsel : (out.getD i []).getD j' 0 = 0) :
    (probs.getD i []).getD j' 0 ≤ (probs.getD i []).getD j 0 := by
  obtain ⟨hlen, hout⟩ := predict_eq_some h
  rw [hout, getD_zipWith_predictRow hi hlen, getD_predictRow hj] at hsel
  rw [hout, getD_zipWith_predictRow hi hlen, getD_predictRow hj'] at hunsel
  have hmem : j ∈ negSlice (ks.getD i 0) (argsort (probs.getD i [])) := by
    by_contra hc
    rw [if_neg hc] at hsel
    exact absurd hsel (by decide)
  have hnmem : j' ∉ negSlice (ks.getD i 0) (argsort (probs.getD i [])) := by
    intro hc
    rw [if_pos hc] at hunsel
    exact absurd hunsel (by decide)
  exact getD_le_of_mem_negSlice hj' hmem hnmem

theorem predict_selects_top_probs_witness :
    (([[(5 : ℚ), 2, 1]] : List (List ℚ)).getD 0 []).getD 2 0 ≤
      (([[(5 : ℚ), 2, 1]] : List (List ℚ)).getD 0 []).getD 0 0 :=
  predict_selects_top_probs [[(5 : ℚ), 2, 1]] [2] [[1, 1, 0]] 0 0 2
    (by decide) (by decide) (by decide) (by decide) (by decide) (by decide)

theorem int_log2_eq {q : ℚ} {L : ℤ} (hq : 0 < q) (h1 : (2 : ℚ) ^ L ≤ q)
    (h2 : q < (2 : ℚ) ^ (L + 1)) : Int.log 2 q = L := by
  have h1a : ((2 : ℕ) : ℚ) ^ L ≤ q := by push_cast; exact h1
  have h2a : q < ((2 : ℕ) : ℚ) ^ (L + 1) := by push_cast; exact h2
  have hb := (Int.zpow_le_iff_le_log (by norm_num) hq).mp h1a
  have hc := (Int.lt_zpow_iff_log_lt (by norm_num) hq).mp h2a
  omega

theorem roundTiesEven_bounds (m : ℚ) :
    m - 1/2 ≤ (roundTiesEven m : ℚ) ∧ (roundTiesEven m : ℚ) ≤ m + 1/2 := by
  have hfl := Int.floor_le m
  have hfl2 := Int.lt_floor_add_one m
  rw [roundTiesEven]
  split_ifs with h1 h2 h3 <;> constructor <;> push_cast <;> linarith

theorem roundTiesEven_eq_floor {m : ℚ} {z : ℤ} (h1 : (z : ℚ) ≤ m)
    (h2 : m < (z : ℚ) + 1/2) : roundTiesEven m = z := by
  have hfl : ⌊m⌋ = z := Int.floor_eq_iff.mpr ⟨h1, by linarith⟩
  rw [roundTiesEven, hfl, if_pos (by linarith)]

theorem roundPos_bounds {q : ℚ} (hq : 0 < q) :
    q - q * 2 ^ (-53 : ℤ) ≤ roundPos q ∧
    roundPos q ≤ q + q * 2 ^ (-53 : ℤ) := by
  have h2 : (2 : ℚ) ≠ 0 := by norm_num
  rw [roundPos]
  have hself : ((2 : ℕ) : ℚ) ^ Int.log 2 q ≤ q :=
    Int.zpow_log_le_self (by norm_num) hq
  have hselfa : (2 : ℚ) ^ Int.log 2 q ≤ q := by push_cast at hself; exact hself
  have hb := roundTiesEven_bounds (q * 2 ^ (52 - Int.log 2 q))
  have hpos : (0 : ℚ) < 2 ^ (Int.log 2 q - 52) := by positivity
  have hmul : q * 2 ^ (52 - Int.log 2 q) * 2 ^ (Int.log 2 q - 52) = q := by
    rw [mul_assoc, ← zpow_add₀ h2]
    norm_num
  have hhalf : (1/2 : ℚ) * 2 ^ (Int.log 2 q - 52) ≤ q * 2 ^ (-53 : ℤ) := by
    have e1 : (1/2 : ℚ) * 2 ^ (Int.log 2 q - 52) =
        2 ^ Int.log 2 q * 2 ^ (-53 : ℤ) := by
      rw [show (1/2 : ℚ) = 2 ^ (-1 : ℤ) by norm_num, ← zpow_add₀ h2,
        ← zpow_add₀ h2]
      congr 1
      omega
    rw [e1]
    exact mul_le_mul_of_nonneg_right hselfa (by positivity)
  constructor
  · have hlow : (q * 2 ^ (52 - Int.log 2 q) - 1/2) * 2 ^ (Int.log 2 q - 52) ≤
        (roundTiesEven (q * 2 ^ (52 - Int.log 2 q)) : ℚ) *
          2 ^ (Int.log 2 q - 52) :=
      mul_le_mul_of_nonneg_right hb.1 hpos.le
    rw [sub_mul, hmul] at hlow
    exact le_trans (sub_le_sub_left hhalf q) hlow
  · have hup : (roundTiesEven (q * 2 ^ (52 - Int.log 2 q)) : ℚ) *
        2 ^ (Int.log 2 q - 52) ≤
        (q * 2 ^ (52 - Int.log 2 q) + 1/2) * 2 ^ (Int.log 2 q - 52) :=
      mul_le_mul_of_nonneg_right hb.2 hpos.le
    rw [add_mul, hmul] at hup
    exact le_trans hup (add_le_add_left hhalf q)

theorem roundDouble_eq_of {q : ℚ} {L z : ℤ} (hq : 0 < q)
    (h1 : (2 : ℚ) ^ L ≤ q) (h2 : q < (2 : ℚ) ^ (L + 1))
    (h3 : (z : ℚ) ≤ q * 2 ^ (52 - L)) (h4 : q * 2 ^ (52 - L) < (z : ℚ) + 1/2) :
    roundDouble q = (z : ℚ) * 2 ^ (L - 52) := by
  rw [roundDouble, if_neg hq.ne', if_pos hq, roundPos, int_log2_eq hq h1 h2,
    roundTiesEven_eq_floor h3 h4]

/-- C2 (counterexample to the claim as stated): for the training fraction
0.7 — whose binary64 value, correctly rounded from the literal, is
`6305039478318694 / 2^53`, strictly below `7/10` — and `num_nodes = 90`, the
float64 product rounds to `8866461766385663 / 2^47 = 63 - 2^(-47)`, so the
program computes `training_size = 62`, while `⌊0.7 × 90⌋ = 63`. -/
theorem trainingSize_not_ideal_floor :
    (trainingSize (roundDouble (7 / 10)) 90 : Int) ≠
      ⌊(7 / 10 : ℚ) * ((90 : Nat) : ℚ)⌋ := by
  have h7 : roundDouble (7/10 : ℚ) =
      ((6305039478318694 : ℤ) : ℚ) * 2 ^ ((-1 : ℤ) - 52) :=
    roundDouble_eq_of (by norm_num) (by norm_num) (by norm_num) (by norm_num)
      (by norm_num)
  have h7a : roundDouble (7/10 : ℚ) = 6305039478318694 / 2 ^ 53 := by
    rw [h7]
    norm_num
  have hq : (6305039478318694 / 2 ^ 53 : ℚ) * ((90 : Nat) : ℚ) =
      567453553048682460 / 2 ^ 53 := by
    push_cast
    norm_num
  have hrd : roundDouble (567453553048682460 / 2 ^ 53 : ℚ) =
      ((8866461766385663 : ℤ) : ℚ) * 2 ^ ((5 : ℤ) - 52) :=
    roundDouble_eq_of (by norm_num) (by norm_num) (by norm_num) (by norm_num)
      (by norm_num)
  have hfl : ⌊((8866461766385663 : ℤ) : ℚ) * 2 ^ ((5 : ℤ) - 52)⌋ = 62 := by
    rw [Int.floor_eq_iff]
    constructor <;> norm_num
  have hlhs : (trainingSize (roundDouble (7/10)) 90 : Int) = 62 := by
    rw [trainingSize, h7a, hq, hrd, pyInt, if_pos (by norm_num), hfl]
    norm_num
  have hrhs : ⌊(7/10 : ℚ) * ((90 : Nat) : ℚ)⌋ = 63 := by
    rw [show (7/10 : ℚ) * ((90 : Nat) : ℚ) = ((63 : ℤ) : ℚ) by push_cast; norm_num]
    exact Int.floor_intCast 63
  rw [hlhs, hrhs]
  decide

/-- C2 (amended): for every training-fraction double `0 ≤ f ≤ 1` and every
`num_nodes < 2^53`, the driver's `training_size` is the truncation — hence
the floor — of the correctly rounded binary64 product `fl(f × num_nodes)`
(which can fall below `⌊f × num_nodes⌋` computed exactly, as at `f = 0.7`,
`num_nodes = 90`); `training_size` never exceeds `num_nodes`, and the train
prefix and test suffix partition the rows: their lengths sum to `num_nodes`
and their concatenation is the original matrix, no gap and no overlap. -/
theorem split_partition (f : ℚ) (n : Nat) (x : List (List ℚ))
    (h0 : 0 ≤ f) (h1 : f ≤ 1) (hn : n < 2 ^ 53) (hx : x.length = n) :
    (trainingSize f n : Int) = ⌊roundDouble (f * n)⌋ ∧
    trainingSize f n ≤ n ∧
    (trainSplit (trainingSize f n) x).length +
      (testSplit (trainingSize f n) x).length = n ∧
    trainSplit (trainingSize f n) x ++ testSplit (trainingSize f n) x = x := by
  have hq0 : (0 : ℚ) ≤ f * n := mul_nonneg h0 (by positivity)
  have hqn : f * n ≤ n := by
    calc f * n ≤ 1 * n := mul_le_mul_of_nonneg_right h1 (by positivity)
      _ = n := one_mul _
  have hnq : (n : ℚ) * 2 ^ (-53 : ℤ) < 1 := by
    have hcast : (n : ℚ) < 2 ^ 53 := by exact_mod_cast hn
    have hpow : ((2 : ℚ) ^ (53 : ℕ)) * 2 ^ (-53 : ℤ) = 1 := by
      rw [show ((2 : ℚ) ^ (53 : ℕ)) = 2 ^ ((53 : ℕ) : ℤ) from
        (zpow_natCast 2 53).symm, ← zpow_add₀ (by norm_num : (2 : ℚ) ≠ 0)]
      norm_num
    calc (n : ℚ) * 2 ^ (-53 : ℤ) < 2 ^ 53 * 2 ^ (-53 : ℤ) :=
        mul_lt_mul_of_pos_right hcast (by positivity)
      _ = 1 := hpow
  have hbounds : 0 ≤ roundDouble (f * n) ∧ roundDouble (f * n) < n + 1 := by
    rcases eq_or_lt_of_le hq0 with h | h
    · rw [roundDouble, if_pos h.symm]
      exact ⟨le_refl 0, by positivity⟩
    · rw [roundDouble, if_neg h.ne', if_pos h]
      have hb := roundPos_bounds h
      have hmono : f * n * 2 ^ (-53 : ℤ) ≤ (n : ℚ) * 2 ^ (-53 : ℤ) :=
        mul_le_mul_of_nonneg_right hqn (by positivity)
      have h53 : (2 : ℚ) ^ (-53 : ℤ) ≤ 1 := by norm_num
      have hsmall : f * n * 2 ^ (-53 : ℤ) ≤ f * n := by
        calc f * n * 2 ^ (-53 : ℤ) ≤ f * n * 1 :=
            mul_le_mul_of_nonneg_left h53 hq0
          _ = f * n := mul_one _
      exact ⟨by linarith [hb.1], by linarith [hb.2]⟩
  obtain ⟨hrd0, hrdlt⟩ := hbounds
  have hfl0 : 0 ≤ ⌊roundDouble (f * n)⌋ := Int.floor_nonneg.mpr hrd0
  have hfln : ⌊roundDouble (f * n)⌋ < (n : ℤ) + 1 := by
    apply Int.floor_lt.mpr
    push_cast
    exact hrdlt
  have hts : (trainingSize f n : Int) = ⌊roundDouble (f * n)⌋ := by
    rw [trainingSize, pyInt, if_pos hrd0, Int.toNat_of_nonneg hfl0]
  have htsle : trainingSize f n ≤ n := by omega
  refine ⟨hts, htsle, ?_, List.take_append_drop _ _⟩
  rw [trainSplit, testSplit, List.length_take, List.length_drop, hx]
  omega

theorem split_partition_witness :
    (trainingSize 1 3 : Int) = ⌊roundDouble ((1 : ℚ) * ((3 : Nat) : ℚ))⌋ ∧
    trainingSize 1 3 ≤ 3 ∧
    (trainSplit (trainingSize 1 3) [[(7 : ℚ)], [8], [9]]).length +
      (testSplit (trainingSize 1 3) [[(7 : ℚ)], [8], [9]]).length = 3 ∧
    trainSplit (trainingSize 1 3) [[(7 : ℚ)], [8], [9]] ++
      testSplit (trainingSize 1 3) [[(7 : ℚ)], [8], [9]] =
      [[(7 : ℚ)], [8], [9]] :=
  split_partition 1 3 [[(7 : ℚ)], [8], [9]] (by decide) (by decide)
    (by decide) (by decide)

theorem sum_eq_count_one {l : List Nat} (h : ∀ x ∈ l, x = 0 ∨ x = 1) :
    l.sum = l.count 1 := by
  induction l with
  | nil => rfl
  | cons a t ih =>
    have ha := h a (by simp)
    have ht := ih fun x hx => h x (List.mem_cons_of_mem _ hx)
    rw [List.sum_cons, List.count_cons, ht]
    rcases ha with h0 | h1
    · subst h0; simp
    · subst h1; simp [Nat.add_comm]

/-- C4: the oracle list supplied to the classifier (`y_test.sum(axis=1)`)
gives, for each test row of a binary ground-truth matrix, exactly the number
of `1` entries in that row. -/
theorem oracle_counts_eq (y : List (List Nat)) (ts : Nat)
    (hbin : ∀ r ∈ y, ∀ x ∈ r, x = 0 ∨ x = 1) :
    topKListOf (testSplit ts y) = (testSplit ts y).map (fun r => r.count 1) := by
  rw [topKListOf, testSplit]
  exact List.map_congr_left fun r hr =>
    sum_eq_count_one (hbin r (List.drop_subset _ _ hr))

theorem oracle_counts_eq_witness :
    topKListOf (testSplit 1 [[1, 0], [0, 1], [1, 1]]) =
      (testSplit 1 [[1, 0], [0, 1], [1, 1]]).map (fun r => r.count 1) :=
  oracle_counts_eq [[1, 0], [0, 1], [1, 1]] 1 (by decide)

/-- C5: in the single-label case the label-matrix builder produces one-hot
rows: for node `i` with class `c = y i < num_classes`, entry `[i][c]` is `1`
and every other entry of row `i` is `0`. -/
theorem label_matrix_one_hot (y : List Nat) (numClasses i j : Nat)
    (hi : i < y.length) (hc : y.getD i 0 < numClasses) (hj : j < numClasses) :
    ((labelMatrixSingle y numClasses).getD i []).getD j 0 =
      if j = y.getD i 0 then 1 else 0 := by
  have hrow : (labelMatrixSingle y numClasses).getD i [] =
      (List.replicate numClasses 0).set y[i] 1 := by
    rw [labelMatrixSingle, List.getD_eq_getElem _ _ (by simpa using hi),
      List.getElem_map]
  rw [hrow, List.getD_eq_getElem _ _ (by simpa using hj)]
  rw [List.getElem_set, List.getD_eq_getElem y 0 hi]
  by_cases hji : y[i] = j
  · rw [if_pos hji, if_pos hji.symm]
  · rw [if_neg hji, if_neg (fun hc' => hji hc'.symm), List.getElem_replicate]

theorem label_matrix_one_hot_witness :
    ((labelMatrixSingle [1, 0] 2).getD 0 []).getD 1 0 =
      if 1 = ([1, 0] : List Nat).getD 0 0 then 1 else 0 :=
  label_matrix_one_hot [1, 0] 2 0 1 (by decide) (by decide) (by decide)

theorem map_getD_range {α : Type} (d : α) (l : List α) :
    (List.range l.length).map (fun i => l.getD i d) = l := by
  induction l with
  | nil => rfl
  | cons a t ih =>
    rw [List.length_cons, List.range_succ_eq_map, List.map_cons, List.map_map]
    have hcomp : ((fun i => (a :: t).getD i d) ∘ Nat.succ) =
        fun i => t.getD i d := rfl
    rw [hcomp, ih]
    rfl

theorem sortByIndex_withIndex {α : Type} (d : α) (perm : List Nat)
    (m : List α) (hperm : perm.Perm (List.range m.length)) :
    (sortByIndex (withIndex d perm m)).map (fun q => q.2) = m := by
  haveI : IsTotal (Nat × α) (fun a b => a.1 ≤ b.1) :=
    ⟨fun _ _ => Nat.le_total _ _⟩
  haveI : IsTrans (Nat × α) (fun a b => a.1 ≤ b.1) :=
    ⟨fun _ _ _ hab hbc => Nat.le_trans hab hbc⟩
  set s := sortByIndex (withIndex d perm m) with hs
  have hsP : s.Perm (withIndex d perm m) := List.perm_insertionSort _ _
  have hLperm : (withIndex d perm m).Perm
      ((List.range m.length).map (fun i => (i, m.getD i d))) :=
    hperm.map _
  have hperm2 : s.Perm ((List.range m.length).map (fun i => (i, m.getD i d))) :=
    hsP.trans hLperm
  have hsorted : s.Pairwise (fun a b => a.1 ≤ b.1) :=
    List.sorted_insertionSort _ _
  have hmapfst : (withIndex d perm m).map Prod.fst = perm := by
    rw [withIndex, List.map_map]
    exact List.map_id _
  have hfst : (s.map Prod.fst).Perm perm := by
    rw [← hmapfst]
    exact hsP.map Prod.fst
  have hndperm : perm.Nodup := (hperm.nodup_iff).mpr (List.nodup_range _)
  have hnds : (s.map Prod.fst).Nodup := (hfst.nodup_iff).mpr hndperm
  have hne : s.Pairwise (fun a b => a.1 ≠ b.1) := List.pairwise_map.mp hnds
  have hslt : s.Pairwise (fun a b : Nat × α => a.1 < b.1) :=
    (hsorted.and hne).imp fun h => lt_of_le_of_ne h.1 h.2
  have hrlt : ((List.range m.length).map
      (fun i => (i, m.getD i d))).Pairwise
        (fun a b : Nat × α => a.1 < b.1) :=
    List.pairwise_map.mpr ((List.pairwise_lt_range m.length).imp fun h => h)
  haveI : IsAntisymm (Nat × α) (fun a b => a.1 < b.1) :=
    ⟨fun _ _ h h' => (Nat.lt_asymm h h').elim⟩
  have hs_eq : s = (List.range m.length).map (fun i => (i, m.getD i d)) :=
    List.eq_of_perm_of_sorted hperm2 hslt hrlt
  rw [hs_eq, List.map_map]
  have hcomp : ((fun q : Nat × α => q.2) ∘ fun i => (i, m.getD i d)) =
      fun i => m.getD i d := rfl
  rw [hcomp, map_getD_range]

/-- C6: one joint permutation applied to the rows of the feature and label
matrices preserves the multiset of (feature-row, label-row) pairings, and
sorting the shuffled rows of either matrix back by their stored original
index recovers that original matrix exactly. -/
theorem shuffle_round_trip (perm : List Nat) (x : List (List ℚ))
    (y : List (List Nat)) (hperm : perm.Perm (List.range x.length))
    (hlen : y.length = x.length) :
    ((applyPerm [] perm x).zip (applyPerm [] perm y)).Perm (x.zip y) ∧
    (sortByIndex (withIndex [] perm x)).map (fun q => q.2) = x ∧
    (sortByIndex (withIndex [] perm y)).map (fun q => q.2) = y := by
  have h2 : (List.range x.length).map (fun i => (x.getD i [], y.getD i [])) =
      x.zip y := by
    rw [← List.zip_map', map_getD_range]
    congr 1
    rw [← hlen, map_getD_range]
  refine ⟨?_, sortByIndex_withIndex [] perm x hperm,
    sortByIndex_withIndex [] perm y (by rw [hlen]; exact hperm)⟩
  rw [applyPerm, applyPerm, List.zip_map', ← h2]
  exact hperm.map _

theorem shuffle_round_trip_witness :
    ((applyPerm [] [2, 0, 1] [[(1 : ℚ)], [2], [3]]).zip
        (applyPerm [] [2, 0, 1] [[1], [0], [1]])).Perm
      ([[(1 : ℚ)], [2], [3]].zip ([[1], [0], [1]] : List (List Nat))) ∧
    (sortByIndex (withIndex [] [2, 0, 1] [[(1 : ℚ)], [2], [3]])).map
      (fun q => q.2) = [[(1 : ℚ)], [2], [3]] ∧
    (sortByIndex (withIndex [] [2, 0, 1] ([[1], [0], [1]] : List (List Nat)))).map
      (fun q => q.2) = [[1], [0], [1]] :=
  shuffle_round_trip [2, 0, 1] [[(1 : ℚ)], [2], [3]] [[1], [0], [1]]
    (by decide) (by decide)

theorem insertNode_nodup {l : List Nat} {x : Nat} (h : l.Nodup) :
    (insertNode l x).Nodup := by
  rw [insertNode]
  by_cases hx : x ∈ l
  · rw [if_pos hx]; exact h
  · rw [if_neg hx]
    refine List.nodup_append.mpr ⟨h, List.nodup_singleton x, ?_⟩
    intro a hal hax
    rw [List.mem_singleton] at hax
    subst hax
    exact hx hal

theorem mem_insertNode {l : List Nat} {x a : Nat} :
    a ∈ insertNode l x ↔ a ∈ l ∨ a = x := by
  rw [insertNode]
  by_cases hx : x ∈ l
  · rw [if_pos hx]
    constructor
    · exact Or.inl
    · rintro (h | h)
      · exact h
      · exact h ▸ hx
  · rw [if_neg hx, List.mem_append, List.mem_singleton]

theorem mem_foldl_insert :
    ∀ (edges : List (Nat × Nat)) (acc : List Nat) (a : Nat),
      a ∈ edges.foldl (fun l e => insertNode (insertNode l e.1) e.2) acc ↔
        a ∈ acc ∨ ∃ e ∈ edges, a = e.1 ∨ a = e.2
  | [], acc, a => by simp
  | e :: es, acc, a => by
    rw [List.foldl_cons, mem_foldl_insert es _ a, mem_insertNode, mem_insertNode]
    simp only [List.mem_cons]
    constructor
    · rintro (((h | h) | h) | ⟨f, hf, h⟩)
      · exact Or.inl h
      · exact Or.inr ⟨e, Or.inl rfl, Or.inl h⟩
      · exact Or.inr ⟨e, Or.inl rfl, Or.inr h⟩
      · exact Or.inr ⟨f, Or.inr hf, h⟩
    · rintro (h | ⟨f, (rfl | hf), h⟩)
      · exact Or.inl (Or.inl (Or.inl h))
      · rcases h with h | h
        · exact Or.inl (Or.inl (Or.inr h))
        · exact Or.inl (Or.inr h)
      · exact Or.inr ⟨f, hf, h⟩

theorem nodesOrder_nodup :
    ∀ (edges : List (Nat × Nat)) (acc : List Nat), acc.Nodup →
      (edges.foldl (fun l e => insertNode (insertNode l e.1) e.2) acc).Nodup
  | [], _, h => h
  | _ :: es, _, h =>
    nodesOrder_nodup es _ (insertNode_nodup (insertNode_nodup h))

theorem mem_nodesOrder {edges : List (Nat × Nat)} {a : Nat} :
    a ∈ nodesOrder edges ↔ ∃ e ∈ edges, a = e.1 ∨ a = e.2 := by
  rw [nodesOrder, mem_foldl_insert]
  simp

theorem snd_mem_of_mem_enumFrom {α : Type} {l : List α} {n : Nat}
    {q : Nat × α} (h : q ∈ l.enumFrom n) : q.2 ∈ l := by
  rw [← List.enumFrom_map_snd n l]
  exact List.mem_map_of_mem _ h

theorem assignRows_getD_untouched (emb : List (List ℚ))
    (pairs : List (Nat × Nat)) :
    ∀ (m : List (List ℚ)) (t : Nat), (∀ q ∈ pairs, q.2 ≠ t) →
      (assignRows emb pairs m).getD t [] = m.getD t [] := by
  induction pairs with
  | nil => intro m t _; rfl
  | cons p ps ih =>
    intro m t h
    rw [assignRows, List.foldl_cons]
    have h1 := ih (m.set p.2 (emb.getD p.1 [])) t
      (fun q hq => h q (List.mem_cons_of_mem _ hq))
    refine h1.trans ?_
    have hne : p.2 ≠ t := h p (List.mem_cons_self _ _)
    rw [List.getD_eq_getElem?_getD, List.getElem?_set_ne hne,
      ← List.getD_eq_getElem?_getD]

theorem assignRows_enumFrom_getD (emb : List (List ℚ)) :
    ∀ (order : List Nat) (sv : Nat) (m : List (List ℚ)) (vid : Nat),
      order.Nodup → vid < order.length → order.getD vid 0 < m.length →
      (assignRows emb (order.enumFrom sv) m).getD (order.getD vid 0) [] =
        emb.getD (sv + vid) [] := by
  intro order
  induction order with
  | nil => intro sv m vid _ hv _; exact absurd hv (by simp)
  | cons a t ih =>
    intro sv m vid hnd hv hlt
    rw [List.enumFrom, assignRows, List.foldl_cons]
    cases vid with
    | zero =>
      have ha : a ∉ t := (List.nodup_cons.mp hnd).1
      have hgt : (a :: t).getD 0 0 = a := rfl
      rw [hgt] at hlt ⊢
      have huntouched := assignRows_getD_untouched emb (t.enumFrom (sv + 1))
        (m.set a (emb.getD sv [])) a
        (fun q hq hqa => ha (hqa ▸ snd_mem_of_mem_enumFrom hq))
      refine huntouched.trans ?_
      rw [Nat.add_zero, List.getD_eq_getElem _ _ (by simpa using hlt),
        List.getElem_set_self]
    | succ j =>
      have hndt : t.Nodup := (List.nodup_cons.mp hnd).2
      have hgt : (a :: t).getD (j + 1) 0 = t.getD j 0 := rfl
      rw [hgt] at hlt ⊢
      have hvj : j < t.length := by simpa using hv
      have hind := ih (sv + 1) (m.set a (emb.getD sv [])) j hndt hvj
        (by rw [List.length_set]; exact hlt)
      refine hind.trans ?_
      rw [show sv + 1 + j = sv + (j + 1) from by omega]

/-- C8: the aligned feature matrix puts the embedding produced for the
`vid`-th visited node into the row indexed by that node, for every edge list
(hence every visitation order); and a node incident to no edge never enters
the visitation order, so its row stays all-zero. -/
theorem align_features_spec (edges : List (Nat × Nat)) (emb : List (List ℚ))
    (numNodes hiddenSize vid u : Nat)
    (hv : vid < (nodesOrder edges).length)
    (hnode : (nodesOrder edges).getD vid 0 < numNodes)
    (hu : u < numNodes)
    (hiso : ∀ e ∈ edges, e.1 ≠ u ∧ e.2 ≠ u) :
    (alignFeatures numNodes hiddenSize (nodesOrder edges) emb).getD
        ((nodesOrder edges).getD vid 0) [] = emb.getD vid [] ∧
    u ∉ nodesOrder edges ∧
    (alignFeatures numNodes hiddenSize (nodesOrder edges) emb).getD u [] =
      List.replicate hiddenSize 0 := by
  have hnotmem : u ∉ nodesOrder edges := by
    rw [mem_nodesOrder]
    rintro ⟨e, he, (h | h)⟩
    · exact (hiso e he).1 h.symm
    · exact (hiso e he).2 h.symm
  have henum : (nodesOrder edges).enum = (nodesOrder edges).enumFrom 0 := rfl
  refine ⟨?_, hnotmem, ?_⟩
  · rw [alignFeatures, henum]
    have h := assignRows_enumFrom_getD emb (nodesOrder edges) 0
      (List.replicate numNodes (List.replicate hiddenSize 0)) vid
      (nodesOrder_nodup edges [] List.nodup_nil) hv (by simpa using hnode)
    simpa using h
  · rw [alignFeatures, henum]
    have huntouched := assignRows_getD_untouched emb
      ((nodesOrder edges).enumFrom 0)
      (List.replicate numNodes (List.replicate hiddenSize 0)) u
      (fun q hq hqu => hnotmem (hqu ▸ snd_mem_of_mem_enumFrom hq))
    refine huntouched.trans ?_
    rw [List.getD_eq_getElem _ _ (by simpa using hu), List.getElem_replicate]

theorem align_features_spec_witness :
    (alignFeatures 4 2 (nodesOrder [(0, 1), (1, 2)])
        [[(1 : ℚ), 1], [2, 2], [3, 3]]).getD
        ((nodesOrder [(0, 1), (1, 2)]).getD 1 0) [] =
      ([[(1 : ℚ), 1], [2, 2], [3, 3]] : List (List ℚ)).getD 1 [] ∧
    3 ∉ nodesOrder [(0, 1), (1, 2)] ∧
    (alignFeatures 4 2 (nodesOrder [(0, 1), (1, 2)])
        [[(1 : ℚ), 1], [2, 2], [3, 3]]).getD 3 [] = List.replicate 2 0 :=
  align_features_spec [(0, 1), (1, 2)] [[(1 : ℚ), 1], [2, 2], [3, 3]] 4 2 1 3
    (by decide) (by decide) (by decide) (by decide)

theorem trainingPercents_sorted : trainingPercents.Sorted (· ≤ ·) := by
  norm_num [trainingPercents, List.sorted_cons]

theorem resultKeys_of_pos {numShuffle : Nat} (h : 1 ≤ numShuffle) :
    resultKeys numShuffle = trainingPercents := by
  rw [resultKeys, if_neg (by omega)]
  exact List.Sorted.insertionSort_eq trainingPercents_sorted

/-- C7: with at least one shuffle, the evaluation result has exactly one
entry per training fraction, in order; the entry for fraction `f` is keyed
"Micro-F1 f" and carries the arithmetic mean of the `num_shuffle` recorded
micro-F1 scores for `f` (sum of the per-permutation scores divided by their
number). -/
theorem evaluate_entries (score : ℚ → Nat → ℚ) (numShuffle i : Nat)
    (hR : 1 ≤ numShuffle) (hi : i < trainingPercents.length) :
    (evaluate score numShuffle).length = trainingPercents.length ∧
    (evaluate score numShuffle).getD i ("", 0) =
      ("Micro-F1 " ++ floatRepr1 (trainingPercents.getD i 0),
        ((List.range numShuffle).map
            (score (trainingPercents.getD i 0))).sum / (numShuffle : ℚ)) := by
  have hkeys : resultKeys numShuffle = trainingPercents := resultKeys_of_pos hR
  constructor
  · rw [evaluate, hkeys, List.length_map]
  · rw [List.getD_eq_getElem trainingPercents 0 hi]
    rw [evaluate, hkeys]
    rw [List.getD_eq_getElem _ _ (by simpa using hi), List.getElem_map]
    rw [recordedScores]
    simp only [List.length_map, List.length_range]

theorem evaluate_entries_witness :
    (evaluate (fun _ _ => (1 : ℚ)) 2).length = trainingPercents.length ∧
    (evaluate (fun _ _ => (1 : ℚ)) 2).getD 0 ("", 0) =
      ("Micro-F1 " ++ floatRepr1 (trainingPercents.getD 0 0),
        ((List.range 2).map
            ((fun _ _ => (1 : ℚ)) (trainingPercents.getD 0 0))).sum /
          ((2 : Nat) : ℚ)) :=
  evaluate_entries (fun _ _ => 1) 2 0 (by decide) (by decide)

end Cogdl
